import Mathlib

/-!
# Verification of HBuster (hbuster.py)

Shallow embedding of the core of `hbuster.py` — the `Charset` abstraction,
the `CharsetGenerator` brute-force candidate generator, and the
`HBusterSession` worker/scheduler loop — together with proofs and
refutations of the specification's claims about them.

Conventions of the embedding:
* Python strings are Lean `String`s; `str.strip()` is modelled by `pyStrip`
  (drop whitespace from both ends of the character list).
* Python's silent fall-through `return None` of a function is modelled by
  `Option`; a function that may `raise` returns `Except SpecError _`.
* A Python `set` used only for membership tests is modelled by a `List`
  with `∈`.
* The asynchronous workers of `HBusterSession.task` are modelled at two
  granularities.  `microStep` is the faithful interleaved semantics: the
  only suspension points of a worker are its `await self.testPath(...)`
  calls, so one micro-step is one atomic section between two suspensions
  (in particular the `seen` membership check and the later
  `workPools.append` of the same candidate lie in *different* atomic
  sections), each worker carrying its own control state.  `taskStep`
  serializes a whole iteration of the `while` loop into one step; that
  coarser model is exact for a single-worker run (no other worker exists
  to interleave at the suspension points; the timekeeper task never
  touches the job structures) and is used where the property at stake is
  insensitive to the finer interleaving.
-/

/-- The error conditions named by the specification (§7). -/
inductive SpecError
  | invalidCharset
  | invalidRange
  | indexOutOfRange
  | transport
  deriving DecidableEq, Repr

/-! ## Charset (hbuster.py lines 13–90) -/

/-- One stored piece of a `Charset`: either a literal block of characters
(kept whole, counted as one symbol), or a character range, stored by the
codepoints of its two endpoints (`lo < hi` after the constructor's
normalization). -/
inductive Piece
  | lit (s : String)
  | range (lo hi : Nat)
  deriving DecidableEq, Repr

/-- `self.sizes` entry for a piece: 1 for a literal block,
`ord(char2) - ord(char1)` for a range (the source's exclusive convention). -/
def Piece.size : Piece → Nat
  | .lit _ => 1
  | .range lo hi => hi - lo

/-- A `Charset` is its stored tuple of pieces (`self.pieces`; `self.sizes`
is recomputed from the pieces by `Piece.size`). -/
abbrev Charset := List Piece

/-- Well-formedness of one stored piece, as guaranteed by the `Charset`
constructor: literals are nonempty, ranges have strictly ordered endpoints
(equal endpoints are collapsed to a literal, reversed ones are swapped). -/
def Piece.wfb : Piece → Bool
  | .lit s => s ≠ ""
  | .range lo hi => lo < hi

/-- Well-formedness guaranteed by the `Charset` constructor for the whole
stored tuple of pieces. -/
def Charset.WF (cs : Charset) : Prop := ∀ p ∈ cs, p.wfb

instance (cs : Charset) : Decidable cs.WF :=
  inferInstanceAs (Decidable (∀ p ∈ cs, p.wfb = true))

/-- Python `chr`: the one-character string at a codepoint. -/
def chrS (p : Nat) : String := String.mk [Char.ofNat p]

/-- `Charset.__len__`: sum of the piece sizes. -/
def Charset.len (cs : Charset) : Nat := (cs.map Piece.size).sum

/-- The sequence a single piece contributes to `Charset.__iter__`:
a literal block is yielded whole; a range yields `chr(point)` for each
codepoint in `range(ord(char1), ord(char2))`. -/
def Piece.iter : Piece → List String
  | .lit s => [s]
  | .range lo hi => (List.range' lo (hi - lo)).map chrS

/-- `Charset.__iter__`: the pieces' sequences, in piece order. -/
def Charset.iterList (cs : Charset) : List String := cs.flatMap Piece.iter

/-- The character `Charset.__getitem__` returns once the piece holding the
(remaining) index is found: `piece[0]` if the piece has size 1, otherwise
`chr(ord(piece[0]) + index)`. -/
def Piece.at (p : Piece) (i : Nat) : String :=
  match p with
  | .lit s => s
  | .range lo _ => chrS (lo + i)

/-- The `for piece, size in zip(self.pieces, self.sizes)` loop of
`Charset.__getitem__`: subtract sizes until the index lands in a piece;
falling off the end of the loop returns Python `None`. -/
def Charset.getAux : List Piece → Int → Option String
  | [], _ => none
  | p :: rest, i =>
      if (p.size : Int) ≤ i then
        Charset.getAux rest (i - p.size)
      else if p.size = 1 then
        some (p.at 0)
      else
        some (p.at i.toNat)

/-- `Charset.__getitem__(index)`: a negative index is first remapped to
`len(self) - index`; the body contains no `raise`, so the result is always
`Except.ok` of either a character or Python `None`. -/
def Charset.getItem (cs : Charset) (index : Int) : Except SpecError (Option String) :=
  let i := if index < 0 then (cs.len : Int) - index else index
  Except.ok (Charset.getAux cs i)

/-! ### Charset lemmas -/

/-- Each piece contributes exactly its `size` entries to iteration. -/
theorem Piece.length_iter (p : Piece) : p.iter.length = p.size := by
  cases p <;> simp [Piece.iter, Piece.size]

/-- `list(charset)` has exactly `len(charset)` elements. -/
theorem Charset.length_iterList (cs : Charset) : cs.iterList.length = cs.len := by
  induction cs with
  | nil => rfl
  | cons p rest ih =>
      simp [Charset.iterList, Charset.len, List.flatMap_cons] at *
      simp [Piece.length_iter, ih]

/-- Once the index is at least the total of the remaining sizes, the
`__getitem__` loop falls off the end and yields Python `None`. -/
theorem Charset.getAux_eq_none (l : List Piece) (i : Int)
    (h : ((l.map Piece.size).sum : Int) ≤ i) : Charset.getAux l i = none := by
  induction l generalizing i with
  | nil => rfl
  | cons p rest ih =>
      simp only [List.map_cons, List.sum_cons, Nat.cast_add] at h
      rw [Charset.getAux, if_pos (by omega)]
      exact ih _ (by omega)

/-- The `__getitem__` loop agrees with iteration order at every
in-range position. -/
theorem Charset.getAux_eq_getElem? (l : List Piece) (i : Nat) :
    Charset.getAux l (i : Int) = (l.flatMap Piece.iter)[i]? := by
  induction l generalizing i with
  | nil => simp [Charset.getAux]
  | cons p rest ih =>
      rw [List.flatMap_cons, Charset.getAux]
      by_cases h : p.size ≤ i
      · rw [if_pos (by exact_mod_cast h)]
        have hcast : (i : Int) - (p.size : Int) = ((i - p.size : Nat) : Int) := by omega
        rw [hcast, ih]
        rw [List.getElem?_append_right (by rw [Piece.length_iter]; exact h),
          Piece.length_iter]
      · rw [if_neg (by exact_mod_cast h)]
        push_neg at h
        have hlen : i < p.iter.length := by rw [Piece.length_iter]; exact h
        rw [List.getElem?_append_left hlen, List.getElem?_eq_getElem hlen]
        cases p with
        | lit s =>
            have hi0 : i = 0 := by simp [Piece.size] at h; omega
            subst hi0
            simp [Piece.iter, Piece.size, Piece.at]
        | range lo hi =>
            simp only [Piece.size] at h
            by_cases h1 : hi - lo = 1
            · have hi0 : i = 0 := by omega
              subst hi0
              simp [Piece.iter, Piece.size, Piece.at, h1, List.getElem_range']
            · rw [if_neg (by simpa [Piece.size] using h1)]
              simp [Piece.iter, Piece.at, List.getElem_range']

/-- C8: for every valid charset and every index in `[0, length())`,
`get(index)` equals the `index`-th element of the sequence produced by
iterating the charset. -/
theorem charset_get_agrees_with_iteration (cs : Charset) (hwf : cs.WF)
    (i : Nat) (hi : i < cs.len) :
    cs.getItem (i : Int) = Except.ok (some (cs.iterList.getD i "")) := by
  have hlen : i < cs.iterList.length := by rw [Charset.length_iterList]; exact hi
  have : Charset.getAux cs (i : Int) = cs.iterList[i]? := Charset.getAux_eq_getElem? cs i
  rw [Charset.getItem]
  simp only [if_neg (by omega : ¬ (i : Int) < 0)]
  rw [this, List.getElem?_eq_getElem hlen, List.getD_eq_getElem cs.iterList "" hlen]

/-- Witness for C8 on the charset `Charset('ab', 'a-c')`
(pieces `("ab",)` and `('a','c')`) at index 2. -/
theorem charset_get_agrees_with_iteration_witness :
    Charset.getItem [Piece.lit "ab", Piece.range 97 99] (2 : Nat) =
      Except.ok (some ((Charset.iterList [Piece.lit "ab", Piece.range 97 99]).getD 2 "")) :=
  charset_get_agrees_with_iteration [Piece.lit "ab", Piece.range 97 99]
    (by decide) 2 (by decide)

/-- C9 counterexample: on `Charset('a')` and the out-of-range index 1,
`__getitem__` does not fail with `IndexOutOfRangeError` (it falls off
the piece loop and returns Python `None`), so the claim as stated is
false at this input. -/
theorem charset_get_out_of_range_no_error :
    ¬ ((Charset.len [Piece.lit "a"] : Int) ≤ 1 →
        Charset.getItem [Piece.lit "a"] 1 = Except.error SpecError.indexOutOfRange) := by
  intro h
  have h1 := h (by decide)
  have h2 : Charset.getItem [Piece.lit "a"] 1 = Except.ok none := rfl
  rw [h2] at h1
  exact Except.noConfusion h1

/-- C9 amended: for every charset and every index at least `length()`,
`get(index)` raises nothing and returns Python `None`. -/
theorem charset_get_out_of_range_returns_none (cs : Charset) (i : Int)
    (hi : (cs.len : Int) ≤ i) : cs.getItem i = Except.ok none := by
  rw [Charset.getItem]
  have h0 : ¬ i < 0 := by
    have : (0 : Int) ≤ (cs.len : Int) := Int.ofNat_nonneg _
    omega
  simp only [if_neg h0]
  rw [Charset.getAux_eq_none cs i hi]

/-- Witness for the amended C9 on `Charset('a')` at index 5. -/
theorem charset_get_out_of_range_returns_none_witness :
    Charset.getItem [Piece.lit "a"] 5 = Except.ok none :=
  charset_get_out_of_range_returns_none [Piece.lit "a"] 5 (by decide)

/-- C10: for every charset and every negative index, `__getitem__` returns
no symbol (Python `None`): the negative index `i` is remapped to
`len(self) - i ≥ len(self) + 1`, which falls past every piece. -/
theorem charset_get_negative_index_returns_none (cs : Charset) (i : Int)
    (hi : i < 0) : cs.getItem i = Except.ok none := by
  rw [Charset.getItem]
  simp only [if_pos hi]
  rw [Charset.getAux_eq_none cs _ (by unfold Charset.len; omega)]

/-- Witness for C10 on `Charset('a-c')` at index -1. -/
theorem charset_get_negative_index_returns_none_witness :
    Charset.getItem [Piece.range 97 99] (-1) = Except.ok none :=
  charset_get_negative_index_returns_none [Piece.range 97 99] (-1) (by decide)

/-! ## CharsetGenerator (hbuster.py lines 161–170) -/

/-- `itertools.product(chars, repeat=l)` on the materialized symbol list:
every `l`-tuple of symbols, the leftmost position varying slowest. -/
def prodRepeat (chars : List String) : Nat → List (List String)
  | 0 => [[]]
  | n + 1 => chars.flatMap fun c => (prodRepeat chars n).map (c :: ·)

/-- Python `''.join(p)`. -/
def sjoin : List String → String
  | [] => ""
  | t :: ts => t ++ sjoin ts

/-- `CharsetGenerator.__iter__`: for `l in range(mi, ma + 1)`, every
product tuple of length `l`, joined.  `chars` is the materialized
iteration sequence of the generator's charset (what `itertools.product`
makes of the `Charset` instance stored in `self.chars`). -/
def CharsetGenerator.enum (chars : List String) (mi ma : Nat) : List String :=
  (List.range' mi (ma + 1 - mi)).flatMap fun l => (prodRepeat chars l).map sjoin

/-! ### CharsetGenerator lemmas -/

theorem sum_map_const_nat {α : Type} (l : List α) (c : Nat) :
    (l.map fun _ => c).sum = l.length * c := by
  induction l with
  | nil => simp
  | cons a t ih => simp [ih, Nat.succ_mul, Nat.add_comm]

/-- `product(chars, repeat=l)` has exactly `len(chars)^l` tuples. -/
theorem length_prodRepeat (chars : List String) (l : Nat) :
    (prodRepeat chars l).length = chars.length ^ l := by
  induction l with
  | zero => rfl
  | succ n ih =>
      rw [prodRepeat, List.length_flatMap]
      simp only [Function.comp_def, List.length_map, ih]
      rw [sum_map_const_nat, pow_succ, Nat.mul_comm]

/-- Every product tuple of length level `l` has `l` entries, all drawn
from `chars`. -/
theorem mem_prodRepeat {chars : List String} {l : Nat} {ts : List String}
    (h : ts ∈ prodRepeat chars l) : ts.length = l ∧ ∀ t ∈ ts, t ∈ chars := by
  induction l generalizing ts with
  | zero =>
      simp [prodRepeat] at h
      subst h
      simp
  | succ n ih =>
      simp only [prodRepeat, List.mem_flatMap, List.mem_map] at h
      obtain ⟨c, hc, us, hus, rfl⟩ := h
      obtain ⟨hlen, hmem⟩ := ih hus
      refine ⟨by simp [hlen], ?_⟩
      intro t ht
      rcases List.mem_cons.mp ht with rfl | ht
      · exact hc
      · exact hmem t ht

/-- With pairwise distinct symbols, no product tuple repeats. -/
theorem nodup_prodRepeat (chars : List String) (hnd : chars.Nodup) (l : Nat) :
    (prodRepeat chars l).Nodup := by
  induction l with
  | zero => simp [prodRepeat]
  | succ n ih =>
      rw [prodRepeat, List.nodup_flatMap]
      constructor
      · intro c _
        exact ih.map (fun a b hab => by injection hab)
      · refine hnd.imp ?_
        intro a b hab
        intro x hxa hxb
        simp only [List.mem_map] at hxa hxb
        obtain ⟨ts, _, rfl⟩ := hxa
        obtain ⟨us, _, h2⟩ := hxb
        exact hab (by injection h2 with h3 _; exact h3.symm)

theorem string_eq_of_data_eq {a b : String} (h : a.data = b.data) : a = b := by
  cases a; cases b; simp_all

theorem sjoin_length (ts : List String) :
    (sjoin ts).length = (ts.map String.length).sum := by
  induction ts with
  | nil => rfl
  | cons t ts ih => simp [sjoin, String.length_append, ih]

/-- Joining `n` single-character symbols gives a string of `n` characters. -/
theorem sjoin_length_singles {ts : List String} (h : ∀ t ∈ ts, t.length = 1) :
    (sjoin ts).length = ts.length := by
  rw [sjoin_length]
  induction ts with
  | nil => rfl
  | cons t ts ih =>
      simp only [List.map_cons, List.sum_cons, h t (by simp), List.length_cons]
      rw [ih (fun u hu => h u (List.mem_cons_of_mem t hu))]
      omega

theorem sjoin_data (ts : List String) :
    (sjoin ts).data = (ts.map String.data).flatten := by
  induction ts with
  | nil => rfl
  | cons t ts ih => simp [sjoin, ih]

/-- `''.join` is injective on lists of single-character symbols. -/
theorem sjoin_inj {ts us : List String}
    (hts : ∀ t ∈ ts, t.length = 1) (hus : ∀ u ∈ us, u.length = 1)
    (h : sjoin ts = sjoin us) : ts = us := by
  induction ts generalizing us with
  | nil =>
      cases us with
      | nil => rfl
      | cons u us' =>
          exfalso
          have h1 := congrArg String.length h
          rw [sjoin_length_singles hts, sjoin_length_singles hus] at h1
          simp at h1
  | cons t ts' ih =>
      cases us with
      | nil =>
          exfalso
          have h1 := congrArg String.length h
          rw [sjoin_length_singles hts, sjoin_length_singles hus] at h1
          simp at h1
      | cons u us' =>
          have hdata : t.data ++ (sjoin ts').data = u.data ++ (sjoin us').data := by
            have h2 := congrArg String.data h
            simp only [sjoin, String.data_append] at h2
            exact h2
          have hlen : t.data.length = u.data.length := by
            have ht1 : t.length = 1 := hts t (by simp)
            have hu1 : u.length = 1 := hus u (by simp)
            have e1 : t.data.length = t.length := rfl
            have e2 : u.data.length = u.length := rfl
            omega
          obtain ⟨h1, h2⟩ := List.append_inj hdata hlen
          rw [string_eq_of_data_eq h1,
            ih (fun x hx => hts x (List.mem_cons_of_mem t hx))
              (fun x hx => hus x (List.mem_cons_of_mem u hx))
              (string_eq_of_data_eq h2)]

/-- Membership in the generator output: every produced string is the join
of a product tuple at some level `l` with `mi ≤ l ≤ ma`. -/
theorem mem_enum {chars : List String} {mi ma : Nat} {s : String}
    (h : s ∈ CharsetGenerator.enum chars mi ma) :
    ∃ l, mi ≤ l ∧ l ≤ ma ∧ ∃ ts ∈ prodRepeat chars l, s = sjoin ts := by
  simp only [CharsetGenerator.enum, List.mem_flatMap, List.mem_map] at h
  obtain ⟨l, hl, ts, hts, rfl⟩ := h
  rw [List.mem_range'_1] at hl
  exact ⟨l, hl.1, by omega, ts, hts, rfl⟩

/-- The generator produces exactly `sum_{l=mi}^{ma} len(chars)^l`
strings. -/
theorem enum_length (chars : List String) (mi ma : Nat) :
    (CharsetGenerator.enum chars mi ma).length
      = ((List.range' mi (ma + 1 - mi)).map (chars.length ^ ·)).sum := by
  rw [CharsetGenerator.enum, List.length_flatMap]
  congr 1
  simp [Function.comp_def, length_prodRepeat]

/-- The `∑_{l=mi}^{ma}` of the specification, as a list sum over
`range(mi, ma + 1)`. -/
theorem sum_Icc_pow (N mi ma : Nat) :
    ∑ l in Finset.Icc mi ma, N ^ l
      = ((List.range' mi (ma + 1 - mi)).map (N ^ ·)).sum := by
  rw [Nat.Icc_eq_range']
  rfl

/-- With pairwise distinct single-character symbols the generator output
has no duplicates. -/
theorem enum_nodup (chars : List String) (hnd : chars.Nodup)
    (h1 : ∀ t ∈ chars, t.length = 1) (mi ma : Nat) :
    (CharsetGenerator.enum chars mi ma).Nodup := by
  rw [CharsetGenerator.enum, List.nodup_flatMap]
  constructor
  · intro l _
    refine (nodup_prodRepeat chars hnd l).map_on ?_
    intro ts hts us hus hj
    exact sjoin_inj (fun t ht => h1 t ((mem_prodRepeat hts).2 t ht))
      (fun u hu => h1 u ((mem_prodRepeat hus).2 u hu)) hj
  · have hr : (List.range' mi (ma + 1 - mi)).Nodup := List.nodup_range' _ _
    refine hr.imp ?_
    intro a b hab
    intro x hxa hxb
    simp only [List.mem_map] at hxa hxb
    obtain ⟨ts, hts, rfl⟩ := hxa
    obtain ⟨us, hus, h2⟩ := hxb
    apply hab
    have la : (sjoin ts).length = a := by
      rw [sjoin_length_singles (fun t ht => h1 t ((mem_prodRepeat hts).2 t ht))]
      exact (mem_prodRepeat hts).1
    have lb : (sjoin us).length = b := by
      rw [sjoin_length_singles (fun u hu => h1 u ((mem_prodRepeat hus).2 u hu))]
      exact (mem_prodRepeat hus).1
    rw [← la, ← h2, lb]

/-- C7, amended: for every valid charset and every `mi ≤ ma`, the
generator produces exactly `∑_{l=mi}^{ma} length(charset)^l` strings, and
every produced string is the concatenation of between `mi` and `ma`
charset symbols; when every symbol of the charset is a single character
and the symbols are pairwise distinct, every produced string moreover has
character length in `[mi, ma]` and no string is produced twice. -/
theorem generator_count_membership_nodup (cs : Charset) (hwf : cs.WF)
    (mi ma : Nat) (hm : mi ≤ ma) :
    (CharsetGenerator.enum cs.iterList mi ma).length
        = ∑ l in Finset.Icc mi ma, cs.len ^ l
    ∧ (∀ s ∈ CharsetGenerator.enum cs.iterList mi ma,
        ∃ ts, mi ≤ ts.length ∧ ts.length ≤ ma ∧
          (∀ t ∈ ts, t ∈ cs.iterList) ∧ s = sjoin ts)
    ∧ ((∀ t ∈ cs.iterList, t.length = 1) → cs.iterList.Nodup →
        (∀ s ∈ CharsetGenerator.enum cs.iterList mi ma,
            mi ≤ s.length ∧ s.length ≤ ma)
        ∧ (CharsetGenerator.enum cs.iterList mi ma).Nodup) := by
  refine ⟨?_, ?_, ?_⟩
  · rw [enum_length, sum_Icc_pow, Charset.length_iterList]
  · intro s hs
    obtain ⟨l, hl1, hl2, ts, hts, rfl⟩ := mem_enum hs
    obtain ⟨hlen, hmem⟩ := mem_prodRepeat hts
    exact ⟨ts, by omega, by omega, hmem, rfl⟩
  · intro h1 hnd
    refine ⟨?_, enum_nodup cs.iterList hnd h1 mi ma⟩
    intro s hs
    obtain ⟨l, hl1, hl2, ts, hts, rfl⟩ := mem_enum hs
    obtain ⟨hlen, hmem⟩ := mem_prodRepeat hts
    rw [sjoin_length_singles (fun t ht => h1 t (hmem t ht))]
    omega

/-- Witness for the amended C7 on `Charset('a-c')` with lengths 1..2:
the count clause instantiated there. -/
theorem generator_count_membership_nodup_witness :
    (CharsetGenerator.enum (Charset.iterList [Piece.range 97 99]) 1 2).length
      = ∑ l in Finset.Icc 1 2, (Charset.len [Piece.range 97 99]) ^ l :=
  (generator_count_membership_nodup [Piece.range 97 99] (by decide) 1 2
    (by decide)).1

/-- C7 counterexample: the valid charset `Charset('%20', '%20')` (two
literal pieces) with `mi = ma = 1` produces `["%20", "%20"]`: the produced
strings have character length 3, not in `[1, 1]`, and the same string is
produced twice, so the claim as stated is false at this input. -/
theorem generator_claim_counterexample :
    Charset.WF [Piece.lit "%20", Piece.lit "%20"] ∧
    ¬ ((CharsetGenerator.enum
          (Charset.iterList [Piece.lit "%20", Piece.lit "%20"]) 1 1).length
          = ∑ l in Finset.Icc 1 1, (Charset.len [Piece.lit "%20", Piece.lit "%20"]) ^ l
        ∧ (∀ s ∈ CharsetGenerator.enum
              (Charset.iterList [Piece.lit "%20", Piece.lit "%20"]) 1 1,
            1 ≤ s.length ∧ s.length ≤ 1)
        ∧ (CharsetGenerator.enum
            (Charset.iterList [Piece.lit "%20", Piece.lit "%20"]) 1 1).Nodup) := by
  refine ⟨by decide, ?_⟩
  intro h
  have hmem : "%20" ∈ CharsetGenerator.enum
      (Charset.iterList [Piece.lit "%20", Piece.lit "%20"]) 1 1 := by decide
  have := (h.2.1 "%20" hmem).2
  exact absurd this (by decide)

/-! ## CLI-level pieces of `hbuster` (hbuster.py lines 295–332) and
`HBusterSession.testPath` (lines 244–252) -/

/-- A Python value as it occurs in the valid-status check: either an
integer (the HTTP status code the transport reports) or a string (an
element of `set(validStatus.split(','))`). -/
inductive PyVal
  | int (n : Int)
  | str (s : String)
  deriving DecidableEq, Repr

/-- Python `==` between such values: values of different types are never
equal (so `in` over a set of strings never matches an integer). -/
def pyEq : PyVal → PyVal → Bool
  | .int a, .int b => a == b
  | .str a, .str b => a == b
  | _, _ => false

/-- Python `str.split(',')` (comma-separated, empty pieces kept). -/
def splitCommaAux : List Char → List Char → List String
  | [], acc => [String.mk acc.reverse]
  | c :: cs, acc =>
      if c = ',' then String.mk acc.reverse :: splitCommaAux cs []
      else splitCommaAux cs (c :: acc)

def pySplitComma (s : String) : List String := splitCommaAux s.data []

/-- `self.validStatus = set(validStatus.split(','))` — a set of *strings*
(hbuster.py line 182). -/
def parseValidStatus (opt : String) : List PyVal :=
  (pySplitComma opt).map PyVal.str

/-- `HBusterSession.testPath` (lines 244–252), with the transport's
reported status code injected: build `url = host + path`, test
`status in validStatus` (Python `in`, i.e. `pyEq` against each member),
append the url to `found` and return `True` on a match, else return
`False`. -/
def testPath (validStatus : List PyVal) (host : String) (found : List String)
    (path : String) (status : Int) : List String × Bool :=
  let url := host ++ path
  if validStatus.any (fun v => pyEq (.int status) v) then (found ++ [url], true)
  else (found, false)

/-- Lines 310–313 of `hbuster`: the `extensions` parameter is rebound to
`['']` *before* the `if extensions is not None:` test, so the test is made
on the fresh list (never `None`) and the comprehension iterates over that
same `['']`; the user-supplied value is dead. -/
def formatExtensions (userExtensions : Option String) : List String :=
  let extensions : List String := [""]
  extensions ++ extensions.map (fun ext => "." ++ ext)

/-- Lines 306–308 of `hbuster`: `if dirlist and min > max: raise ...` —
the range validation, which fires only when `dirlist` is truthy (a word
list was supplied). -/
def rangeCheck (dirlist : Option String) (mi ma : Nat) : Except SpecError Unit :=
  let truthy : Bool := match dirlist with
    | none => false
    | some d => d != ""
  if truthy ∧ mi > ma then Except.error SpecError.invalidRange
  else Except.ok ()

/-- Helper: every member of `set(validStatus.split(','))` is a string, so
the `in` test of `testPath` against an integer status never succeeds. -/
theorem parseValidStatus_never_matches_int (opt : String) (status : Int) :
    (parseValidStatus opt).any (fun v => pyEq (.int status) v) = false := by
  rw [List.any_eq_false]
  intro v hv
  rw [parseValidStatus, List.mem_map] at hv
  obtain ⟨s, _, rfl⟩ := hv
  simp [pyEq]

/-- C2 (code bug): with the default valid-status option `'200'` and a
transport-reported status code 200 — a member of the configured integer
set `{200}` — `testPath` records nothing in `found` and reports the path
as not valid, because `set('200'.split(','))` holds the *string* `'200'`
and Python's `in` never equates the integer 200 with it.  (Evaluated at
the failing input; moreover no status code ever matches, by
`parseValidStatus_never_matches_int`.) -/
theorem testPath_valid_status_never_records :
    testPath (parseValidStatus "200") "http://host" [] "/admin" 200 = ([], false) ∧
    ∀ (opt host path : String) (found : List String) (status : Int),
      testPath (parseValidStatus opt) host found path status = (found, false) := by
  constructor
  · simp [testPath, parseValidStatus_never_matches_int]
  · intro opt host path found status
    simp [testPath, parseValidStatus_never_matches_int]

/-- C4 (code bug): evaluated at the failing input `--extensions php`, the
extension list actually used is `['', '.']`, never containing `'.php'`;
indeed every run uses `['', '.']`, because the parameter is rebound to
`['']` before it is inspected and the comprehension dots the contents of
that rebound list. -/
theorem formatExtensions_discards_configured :
    formatExtensions (some "php") = ["", "."] ∧
    formatExtensions (some "php") ≠ ["", ".php"] ∧
    ∀ u : Option String, formatExtensions u = ["", "."] := by
  refine ⟨rfl, by decide, fun u => rfl⟩

/-- C5 (code bug): evaluated at min 5 > max 2 — with the generator
strategy (`dirlist = None`) the check passes silently, while with a word
list supplied it raises `InvalidRangeError`: the guard `if dirlist and
min > max` enforces the validation exactly when a word list is used, the
opposite of its own comment ("only if using a pure brute force method")
and of the claim. -/
theorem rangeCheck_enforced_only_with_wordlist :
    rangeCheck none 5 2 = Except.ok () ∧
    rangeCheck (some "words.txt") 5 2 = Except.error SpecError.invalidRange := by
  exact ⟨rfl, rfl⟩

/-! ## HBusterSession worker loop (hbuster.py lines 173–291) -/

/-- Python `str.strip()`: drop whitespace from both ends. -/
def pyStrip (s : String) : String :=
  String.mk
    (((s.data.dropWhile Char.isWhitespace).reverse.dropWhile Char.isWhitespace).reverse)

/-- The per-run configuration a worker sees.  `fresh` is the candidate
sequence a freshly added source yields (`addFile`, lines 211–215:
a re-opened word list, or a fresh `iter(self.charGenerator)` — in both
cases the same full finite sequence for every new job). -/
structure Config where
  host : String
  extensions : List String
  recursive : Bool
  fresh : List String

/-- The session state shared by the workers (`__init__`, lines 191–203),
plus the ghost field `created` recording every prefix ever used to create
a job (for stating the C1 invariant).  `seen` is a Python set used only
for membership, modelled as a list. -/
structure SessionState where
  workPools : List String
  poolFiles : List (List String)
  seen : List String
  found : List String
  requests : Nat
  created : List String
  deriving DecidableEq, Repr

/-- `HBusterSession.__init__`: one root job with the empty prefix and one
fresh source; the root prefix is pre-seeded into `seen`. -/
def initState (cfg : Config) : SessionState :=
  { workPools := [""], poolFiles := [cfg.fresh], seen := [""],
    found := [], requests := 0, created := [""] }

/-- The `for fileExt in self.extensions:` loop of `HBusterSession.task`
(lines 266–274), with `testPath` (lines 244–252) inlined: `tester` gives
the result of `await self.testPath(path + fileExt)` — `Except.error` when
the transport raises while testing that full path, otherwise the boolean
verdict.  On `True` the url `host + path + fileExt` was appended to
`found` inside `testPath`; then the path is echoed and, in recursive
mode, `path` becomes a new job with a fresh source and is added to
`seen` (lines 270–273).  `self.requests` is incremented once per
extension attempt (line 274).  An exception from the tester propagates:
the surrounding `try` catches only `StopIteration`.

This runs the whole loop without interleaving from other workers; in the
source every `await self.testPath` is a suspension point (`microStep`
below models that granularity).  For a single-worker run the serialized
loop is the exact semantics. -/
def extLoopE (cfg : Config) (tester : String → Except SpecError Bool)
    (path : String) : List String → SessionState → Except SpecError SessionState
  | [], s => Except.ok s
  | ext :: rest, s =>
      match tester (path ++ ext) with
      | .error e => .error e
      | .ok v =>
          let s1 := if v then
              { s with found := s.found ++ [cfg.host ++ (path ++ ext)] }
            else s
          let s2 := if v && cfg.recursive then
              { s1 with workPools := s1.workPools ++ [path],
                        poolFiles := s1.poolFiles ++ [cfg.fresh],
                        seen := s1.seen ++ [path],
                        created := s1.created ++ [path] }
            else s1
          extLoopE cfg tester path rest { s2 with requests := s2.requests + 1 }

/-- One iteration of a worker's `while self.workPools:` loop
(`HBusterSession.task`, lines 254–278): compute the job index
`id % len(self.workPools)`, read the confirmed prefix, pull the next
candidate from that job's source — `StopIteration` pops the job and its
source (lines 276–278) — strip it, build
`path = confirmed + '/' + extension`, skip it when already in `seen`,
otherwise run the extension loop.  On empty `workPools` the worker's
loop has exited and the state is unchanged.

Like `extLoopE` this serializes one whole iteration into one step —
exact for a single-worker run; `microStep` below exposes the per-`await`
interleaving of several workers. -/
def taskStepE (cfg : Config) (tester : String → Except SpecError Bool)
    (id : Nat) (s : SessionState) : Except SpecError SessionState :=
  if s.workPools.isEmpty then Except.ok s
  else
    let currentJob := id % s.workPools.length
    let confirmed := s.workPools.getD currentJob ""
    match s.poolFiles.getD currentJob [] with
    | [] =>
        Except.ok { s with workPools := s.workPools.eraseIdx currentJob,
                           poolFiles := s.poolFiles.eraseIdx currentJob }
    | cand :: rest =>
        let s1 := { s with poolFiles := s.poolFiles.set currentJob rest }
        let path := confirmed ++ "/" ++ pyStrip cand
        if path ∈ s1.seen then Except.ok s1
        else extLoopE cfg tester path cfg.extensions s1

/-- `extLoopE` for a tester that never raises (the verdict function
`valid`): the extension loop as a pure state transformer. -/
def extLoop (cfg : Config) (valid : String → Bool)
    (path : String) : List String → SessionState → SessionState
  | [], s => s
  | ext :: rest, s =>
      let s1 := if valid (path ++ ext) then
          { s with found := s.found ++ [cfg.host ++ (path ++ ext)] }
        else s
      let s2 := if valid (path ++ ext) && cfg.recursive then
          { s1 with workPools := s1.workPools ++ [path],
                    poolFiles := s1.poolFiles ++ [cfg.fresh],
                    seen := s1.seen ++ [path],
                    created := s1.created ++ [path] }
        else s1
      extLoop cfg valid path rest { s2 with requests := s2.requests + 1 }

/-- `taskStepE` for a tester that never raises, as a pure step. -/
def taskStep (cfg : Config) (valid : String → Bool)
    (id : Nat) (s : SessionState) : SessionState :=
  if s.workPools.isEmpty then s
  else
    let currentJob := id % s.workPools.length
    let confirmed := s.workPools.getD currentJob ""
    match s.poolFiles.getD currentJob [] with
    | [] =>
        { s with workPools := s.workPools.eraseIdx currentJob,
                 poolFiles := s.poolFiles.eraseIdx currentJob }
    | cand :: rest =>
        let s1 := { s with poolFiles := s.poolFiles.set currentJob rest }
        let path := confirmed ++ "/" ++ pyStrip cand
        if path ∈ s1.seen then s1
        else extLoop cfg valid path cfg.extensions s1

/-- The pure step is exactly the error-free projection of the exceptional
one. -/
theorem extLoopE_ok (cfg : Config) (valid : String → Bool) (path : String)
    (exts : List String) (s : SessionState) :
    extLoopE cfg (fun p => Except.ok (valid p)) path exts s
      = Except.ok (extLoop cfg valid path exts s) := by
  induction exts generalizing s with
  | nil => rfl
  | cons ext rest ih => simp only [extLoopE, extLoop, ih]

theorem taskStepE_ok (cfg : Config) (valid : String → Bool) (id : Nat)
    (s : SessionState) :
    taskStepE cfg (fun p => Except.ok (valid p)) id s
      = Except.ok (taskStep cfg valid id s) := by
  rw [taskStepE, taskStep]
  by_cases he : s.workPools.isEmpty
  · simp [he]
  · simp only [if_neg he]
    cases hm : s.poolFiles.getD (id % s.workPools.length) [] with
    | nil => rfl
    | cons cand rest =>
        simp only []
        split
        · rfl
        · exact extLoopE_ok ..

/-! ### The C1 session invariant -/

/-- The session invariant of the specification (§3), over the
ghost-extended state: job and source lists stay aligned, every live job
prefix is in `seen`, no two jobs share a prefix, and `seen` is a superset
of every prefix ever used to create a job. -/
def SessionInv (s : SessionState) : Prop :=
  s.workPools.length = s.poolFiles.length ∧
  (∀ p ∈ s.workPools, p ∈ s.seen) ∧
  s.workPools.Nodup ∧
  (∀ p ∈ s.created, p ∈ s.seen)

instance (s : SessionState) : Decidable (SessionInv s) :=
  inferInstanceAs (Decidable (s.workPools.length = s.poolFiles.length ∧
    (∀ p ∈ s.workPools, p ∈ s.seen) ∧ s.workPools.Nodup ∧
    (∀ p ∈ s.created, p ∈ s.seen)))

/-- A small concrete configuration: fresh sources yield the word list
`["admin"]`, the extension list is the one every run actually uses
(`['', '.']`), recursive mode on. -/
def demoCfg : Config :=
  { host := "http://host", extensions := ["", "."], recursive := true,
    fresh := ["admin"] }

/-- `demoCfg` with recursive mode off. -/
def demoCfgNR : Config :=
  { demoCfg with recursive := false }

/-- The extension loop preserves the invariant provided at most one
extension of the candidate still tests valid, counting an already-created
job for `path` as one occurrence. -/
theorem extLoop_preserves_inv (cfg : Config) (valid : String → Bool)
    (path : String) (exts : List String) (s : SessionState)
    (hinv : SessionInv s)
    (hcount : exts.countP (fun e => valid (path ++ e))
        + (if path ∈ s.workPools then 1 else 0) ≤ 1) :
    SessionInv (extLoop cfg valid path exts s) := by
  induction exts generalizing s with
  | nil => exact hinv
  | cons ext rest ih =>
      obtain ⟨hlen, hsub, hnd, hcr⟩ := hinv
      rw [extLoop]
      by_cases hv : valid (path ++ ext) = true
      · have hc1 : (ext :: rest).countP (fun e => valid (path ++ e))
            = rest.countP (fun e => valid (path ++ e)) + 1 := by
          rw [List.countP_cons]
          simp [hv]
        have hrest0 : rest.countP (fun e => valid (path ++ e)) = 0 := by
          rw [hc1] at hcount
          omega
        have hnotin : path ∉ s.workPools := by
          intro hmem
          rw [hc1, if_pos hmem] at hcount
          omega
        rw [if_pos hv]
        by_cases hr : cfg.recursive = true
        · rw [if_pos (by simp [hv, hr])]
          apply ih
          · refine ⟨by simp [hlen], ?_, ?_, ?_⟩
            · intro p hp
              simp only [List.mem_append, List.mem_singleton] at hp ⊢
              rcases hp with hp | rfl
              · exact Or.inl (hsub p hp)
              · exact Or.inr rfl
            · rw [List.nodup_append]
              refine ⟨hnd, List.nodup_singleton _, ?_⟩
              intro x hx hx2
              rw [List.mem_singleton] at hx2
              subst hx2
              exact hnotin hx
            · intro p hp
              simp only [List.mem_append, List.mem_singleton] at hp ⊢
              rcases hp with hp | rfl
              · exact Or.inl (hcr p hp)
              · exact Or.inr rfl
          · rw [hrest0, if_pos (by simp)]
        · rw [if_neg (by simp [hr])]
          apply ih
          · exact ⟨hlen, hsub, hnd, hcr⟩
          · rw [hrest0]
            split <;> omega
      · rw [if_neg hv, if_neg (by simp [hv])]
        apply ih
        · exact ⟨hlen, hsub, hnd, hcr⟩
        · have : (ext :: rest).countP (fun e => valid (path ++ e))
              = rest.countP (fun e => valid (path ++ e)) := by
            rw [List.countP_cons]
            simp [hv]
          rw [this] at hcount
          exact hcount


/-! ### Case equations for one worker iteration -/

/-- With no live job the worker's `while` loop has exited. -/
theorem taskStep_of_empty (cfg : Config) (valid : String → Bool) (id : Nat)
    (s : SessionState) (h : s.workPools = []) : taskStep cfg valid id s = s := by
  rw [taskStep, if_pos (by simp [h])]

/-- `StopIteration`: the job and its source are popped. -/
theorem taskStep_of_exhausted (cfg : Config) (valid : String → Bool) (id : Nat)
    (s : SessionState) (hne : s.workPools ≠ [])
    (hm : s.poolFiles.getD (id % s.workPools.length) [] = []) :
    taskStep cfg valid id s =
      { s with workPools := s.workPools.eraseIdx (id % s.workPools.length),
               poolFiles := s.poolFiles.eraseIdx (id % s.workPools.length) } := by
  rw [taskStep, if_neg (by simp [hne])]
  simp only [hm]

/-- A candidate already in `seen` is skipped; only the source advanced. -/
theorem taskStep_of_seen (cfg : Config) (valid : String → Bool) (id : Nat)
    (s : SessionState) (cand : String) (rest : List String)
    (hne : s.workPools ≠ [])
    (hm : s.poolFiles.getD (id % s.workPools.length) [] = cand :: rest)
    (hseen : s.workPools.getD (id % s.workPools.length) "" ++ "/" ++ pyStrip cand
        ∈ s.seen) :
    taskStep cfg valid id s =
      { s with poolFiles := s.poolFiles.set (id % s.workPools.length) rest } := by
  rw [taskStep, if_neg (by simp [hne])]
  simp only [hm]
  rw [if_pos hseen]

/-- A fresh candidate: the source advances and the extension loop runs. -/
theorem taskStep_of_unseen (cfg : Config) (valid : String → Bool) (id : Nat)
    (s : SessionState) (cand : String) (rest : List String)
    (hne : s.workPools ≠ [])
    (hm : s.poolFiles.getD (id % s.workPools.length) [] = cand :: rest)
    (hseen : s.workPools.getD (id % s.workPools.length) "" ++ "/" ++ pyStrip cand
        ∉ s.seen) :
    taskStep cfg valid id s =
      extLoop cfg valid
        (s.workPools.getD (id % s.workPools.length) "" ++ "/" ++ pyStrip cand)
        cfg.extensions
        { s with poolFiles := s.poolFiles.set (id % s.workPools.length) rest } := by
  rw [taskStep, if_neg (by simp [hne])]
  simp only [hm]
  rw [if_neg hseen]

/-- One worker iteration preserves the invariant whenever at most one
extension of any candidate path tests valid. -/
theorem taskStep_preserves_inv (cfg : Config) (valid : String → Bool)
    (hone : ∀ path : String, cfg.extensions.countP (fun e => valid (path ++ e)) ≤ 1)
    (id : Nat) (s : SessionState) (hinv : SessionInv s) :
    SessionInv (taskStep cfg valid id s) := by
  obtain ⟨hlen, hsub, hnd, hcr⟩ := hinv
  by_cases hne : s.workPools = []
  · rw [taskStep_of_empty cfg valid id s hne]
    exact ⟨hlen, hsub, hnd, hcr⟩
  · have hwplen : 0 < s.workPools.length := List.length_pos.mpr hne
    have hjlt : id % s.workPools.length < s.workPools.length :=
      Nat.mod_lt _ hwplen
    cases hm : s.poolFiles.getD (id % s.workPools.length) [] with
    | nil =>
        rw [taskStep_of_exhausted cfg valid id s hne hm]
        refine ⟨?_, ?_, ?_, hcr⟩
        · simp only []
          rw [List.length_eraseIdx_of_lt hjlt,
            List.length_eraseIdx_of_lt (by omega)]
          omega
        · intro p hp
          exact hsub p (List.eraseIdx_subset _ _ hp)
        · exact hnd.sublist (List.eraseIdx_sublist _ _)
    | cons cand rest =>
        by_cases hseen :
            s.workPools.getD (id % s.workPools.length) "" ++ "/" ++ pyStrip cand
              ∈ s.seen
        · rw [taskStep_of_seen cfg valid id s cand rest hne hm hseen]
          exact ⟨by simp [hlen], hsub, hnd, hcr⟩
        · rw [taskStep_of_unseen cfg valid id s cand rest hne hm hseen]
          apply extLoop_preserves_inv
          · exact ⟨by simp [hlen], hsub, hnd, hcr⟩
          · have hnp :
                s.workPools.getD (id % s.workPools.length) "" ++ "/" ++ pyStrip cand
                  ∉ s.workPools := fun hmem => hseen (hsub _ hmem)
            simp only []
            rw [if_neg hnp]
            simpa using hone _

/-- C1 counterexample: with the extension list `['', '.']` the code
actually runs, a root word list `["admin"]`, recursive mode on, a single
worker (for which the serialized `taskStep` is the exact semantics), and
a path tester for which *both* `/admin` and `/admin.` test valid, the
very first worker iteration creates the job `/admin` twice — the
membership check against `seen` runs once per candidate, before the
extension loop, and is not repeated between extensions — so the claimed
invariant is not preserved in runs where more than one configured
extension of the same candidate tests valid. -/
theorem session_invariant_counterexample :
    SessionInv (initState demoCfg) ∧
    ¬ SessionInv (taskStep demoCfg
        (fun p => p == "/admin" || p == "/admin.") 0 (initState demoCfg)) := by
  constructor
  · decide
  · decide

/-! ### Termination of the scheduler (C6) -/

/-- Remaining work: candidates left in all sources plus the number of
live jobs. -/
def measureS (s : SessionState) : Nat :=
  (s.poolFiles.map List.length).sum + s.workPools.length

/-- A run: apply worker iterations under an arbitrary schedule of worker
ids (`asyncio` interleaving of any number of workers) until the job list
is empty or the fuel runs out. -/
def runSteps (cfg : Config) (valid : String → Bool) (sched : Nat → Nat) :
    Nat → SessionState → SessionState
  | 0, s => s
  | n + 1, s =>
      if s.workPools = [] then s
      else runSteps cfg valid sched n (taskStep cfg valid (sched n) s)

/-- With recursive mode off, the extension loop never touches the job or
source lists. -/
theorem extLoop_nonrecursive_pools (cfg : Config) (hrec : cfg.recursive = false)
    (valid : String → Bool) (path : String) (exts : List String)
    (s : SessionState) :
    (extLoop cfg valid path exts s).workPools = s.workPools ∧
    (extLoop cfg valid path exts s).poolFiles = s.poolFiles := by
  induction exts generalizing s with
  | nil => exact ⟨rfl, rfl⟩
  | cons ext rest ih =>
      rw [extLoop]
      rw [if_neg (by simp [hrec])]
      by_cases hv : valid (path ++ ext) = true
      · rw [if_pos hv]
        exact ih _
      · rw [if_neg hv]
        exact ih _

/-- Erasing an exhausted (empty) source does not change the candidate
total. -/
theorem sum_map_length_eraseIdx (l : List (List String)) (j : Nat)
    (h : l.getD j [] = []) :
    ((l.eraseIdx j).map List.length).sum = (l.map List.length).sum := by
  induction l generalizing j with
  | nil => simp
  | cons x xs ih =>
      cases j with
      | zero =>
          simp only [List.getD_cons_zero] at h
          simp [List.eraseIdx, h]
      | succ n =>
          simp only [List.getD_cons_succ] at h
          simp only [List.eraseIdx, List.map_cons, List.sum_cons]
          rw [ih n h]

/-- Advancing a source by one candidate lowers the candidate total by
one. -/
theorem sum_map_length_set (l : List (List String)) (j : Nat)
    (x : List String) (hj : j < l.length) :
    ((l.set j x).map List.length).sum + (l.getD j []).length
      = (l.map List.length).sum + x.length := by
  induction l generalizing j with
  | nil => simp at hj
  | cons y ys ih =>
      cases j with
      | zero => simp [List.set]; omega
      | succ n =>
          simp only [List.set, List.map_cons, List.sum_cons, List.getD_cons_succ]
          have := ih n (by simpa using hj)
          omega

/-- Every worker iteration on a non-empty job list strictly shrinks the
measure when recursive mode is off. -/
theorem taskStep_measure_lt (cfg : Config) (hrec : cfg.recursive = false)
    (valid : String → Bool) (id : Nat) (s : SessionState)
    (hne : s.workPools ≠ []) :
    measureS (taskStep cfg valid id s) < measureS s := by
  have hwplen : 0 < s.workPools.length := List.length_pos.mpr hne
  have hjlt : id % s.workPools.length < s.workPools.length := Nat.mod_lt _ hwplen
  cases hm : s.poolFiles.getD (id % s.workPools.length) [] with
  | nil =>
      rw [taskStep_of_exhausted cfg valid id s hne hm]
      unfold measureS
      simp only []
      rw [sum_map_length_eraseIdx _ _ hm,
        List.length_eraseIdx_of_lt hjlt]
      omega
  | cons cand rest =>
      have hjpf : id % s.workPools.length < s.poolFiles.length := by
        by_contra hge
        rw [List.getD_eq_getElem?_getD, List.getElem?_eq_none (by omega)] at hm
        exact List.noConfusion hm
      have hsum := sum_map_length_set s.poolFiles (id % s.workPools.length) rest hjpf
      rw [hm] at hsum
      by_cases hseen :
          s.workPools.getD (id % s.workPools.length) "" ++ "/" ++ pyStrip cand
            ∈ s.seen
      · rw [taskStep_of_seen cfg valid id s cand rest hne hm hseen]
        unfold measureS
        simp only [List.length_cons] at hsum ⊢
        omega
      · rw [taskStep_of_unseen cfg valid id s cand rest hne hm hseen]
        unfold measureS
        obtain ⟨hwp, hpf⟩ := extLoop_nonrecursive_pools cfg hrec valid _ cfg.extensions
          { s with poolFiles := s.poolFiles.set (id % s.workPools.length) rest }
        rw [hwp, hpf]
        simp only [List.length_cons] at hsum ⊢
        omega

/-- With enough fuel the run drains the job list. -/
theorem runSteps_empties (cfg : Config) (hrec : cfg.recursive = false)
    (valid : String → Bool) (sched : Nat → Nat) :
    ∀ (n : Nat) (s : SessionState), measureS s ≤ n →
      (runSteps cfg valid sched n s).workPools = [] := by
  intro n
  induction n with
  | zero =>
      intro s hs
      rw [runSteps]
      have : s.workPools.length = 0 := by
        unfold measureS at hs
        omega
      exact List.length_eq_zero.mp this
  | succ n ih =>
      intro s hs
      rw [runSteps]
      by_cases hne : s.workPools = []
      · rw [if_pos hne]
        exact hne
      · rw [if_neg hne]
        apply ih
        have := taskStep_measure_lt cfg hrec valid (sched n) s hne
        omega

/-- C6: for every finite candidate source (any word list or generator
output, per job) with recursive mode off, every run of the scheduler —
any number of workers, any interleaving, any path-tester verdicts —
terminates within `measureS` worker iterations, the job list is then
empty, and every worker's loop has exited (further steps change
nothing). -/
theorem scheduler_terminates_jobs_empty (cfg : Config)
    (hrec : cfg.recursive = false) (valid : String → Bool)
    (sched : Nat → Nat) (s : SessionState) :
    (runSteps cfg valid sched (measureS s) s).workPools = [] ∧
    ∀ id, taskStep cfg valid id (runSteps cfg valid sched (measureS s) s)
        = runSteps cfg valid sched (measureS s) s := by
  have h1 := runSteps_empties cfg hrec valid sched (measureS s) s le_rfl
  exact ⟨h1, fun id => taskStep_of_empty cfg valid id _ h1⟩

/-- Witness for C6: the run from the initial state of `demoCfgNR`
(word list `["admin"]`, recursive off) drains the job list. -/
theorem scheduler_terminates_jobs_empty_witness :
    (runSteps demoCfgNR (fun _ => true) (fun _ => 0)
        (measureS (initState demoCfgNR)) (initState demoCfgNR)).workPools = [] :=
  (scheduler_terminates_jobs_empty demoCfgNR rfl (fun _ => true)
    (fun _ => 0) (initState demoCfgNR)).1

/-! ### Transport failures (C3) -/

/-- C3 counterexample: a transport error while testing the very first
full path does not leave the worker running with the attempt counted as
"not valid" — the step aborts with the error (the worker's `try` catches
only `StopIteration`, and `asyncio.gather` then surfaces the exception to
the session), so the claim as stated is false at this input. -/
theorem transport_error_aborts_worker :
    taskStepE demoCfg (fun _ => Except.error SpecError.transport) 0
        (initState demoCfg)
      = Except.error SpecError.transport ∧
    ∀ s', taskStepE demoCfg (fun _ => Except.error SpecError.transport) 0
        (initState demoCfg) ≠ Except.ok s' := by
  refine ⟨rfl, ?_⟩
  intro s' h
  rw [(rfl : taskStepE demoCfg (fun _ => Except.error SpecError.transport) 0
      (initState demoCfg) = Except.error SpecError.transport)] at h
  exact Except.noConfusion h

/-- C3, amended: a transport error raised while testing a full path
propagates out of the worker step unchanged — the extension loop (and
with it the worker iteration) aborts with that error, before anything is
recorded for the attempt; only source exhaustion is caught. -/
theorem transport_error_propagates (cfg : Config)
    (tester : String → Except SpecError Bool) (path ext : String)
    (rest : List String) (s : SessionState) (e : SpecError)
    (h : tester (path ++ ext) = Except.error e) :
    extLoopE cfg tester path (ext :: rest) s = Except.error e := by
  rw [extLoopE, h]

/-- Witness for the amended C3 at the concrete configuration. -/
theorem transport_error_propagates_witness :
    extLoopE demoCfg (fun _ => Except.error SpecError.transport) "/admin"
        ["", "."] (initState demoCfg) = Except.error SpecError.transport :=
  transport_error_propagates demoCfg (fun _ => Except.error SpecError.transport)
    "/admin" "" ["."] (initState demoCfg) SpecError.transport rfl

/-! ### The interleaved semantics of the workers (per-`await` granularity) -/

/-- The control state of one worker coroutine of `HBusterSession.task`:
at the top of its `while self.workPools:` loop; suspended at
`await self.testPath(path ++ pending)` with `rest` extensions still to
try for this candidate; or exited. -/
inductive WorkerCtl
  | atLoop
  | inExt (path pending : String) (rest : List String)
  | done
  deriving DecidableEq, Repr

/-- Global state of the interleaved session: the shared session state and
every worker's control state (a worker count `T` run uses ids `0..T-1`;
other ids simply never get scheduled). -/
structure MicroState where
  sess : SessionState
  ctls : Nat → WorkerCtl

/-- All workers start at the top of their loop on the initial session. -/
def microInit (cfg : Config) : MicroState :=
  { sess := initState cfg, ctls := fun _ => WorkerCtl.atLoop }

/-- One atomic section of worker `w`, faithful to the source's suspension
points: the only `await`s of `task` are its `testPath` calls, so one
micro-step is either (a) the synchronous prefix of an iteration — job
index, `next()` / `StopIteration` pop, strip, `seen` check — up to the
*issuing* of the first extension's test (the `seen` check and the later
`workPools.append` of the same candidate are in different atomic
sections), or (b) the resumption after a test's verdict `verdict` came
back: record on valid (`testPath` appended the url before returning),
append a new job and mark `seen` in recursive mode, count the request,
and either issue the next extension's test or return to the loop top.
The verdict is a free parameter of each step, covering any path-tester
behaviour over time. -/
def microStep (cfg : Config) (w : Nat) (verdict : Bool)
    (st : MicroState) : MicroState :=
  match st.ctls w with
  | .done => st
  | .atLoop =>
      let s := st.sess
      if s.workPools = [] then
        { st with ctls := fun i => if i = w then WorkerCtl.done else st.ctls i }
      else
        let j := w % s.workPools.length
        let confirmed := s.workPools.getD j ""
        match s.poolFiles.getD j [] with
        | [] =>
            { st with sess := { s with workPools := s.workPools.eraseIdx j,
                                       poolFiles := s.poolFiles.eraseIdx j } }
        | cand :: rest =>
            let s1 := { s with poolFiles := s.poolFiles.set j rest }
            let path := confirmed ++ "/" ++ pyStrip cand
            if path ∈ s1.seen then { st with sess := s1 }
            else
              match cfg.extensions with
              | [] => { st with sess := s1 }
              | e :: es =>
                  { st with sess := s1,
                            ctls := fun i =>
                              if i = w then WorkerCtl.inExt path e es else st.ctls i }
  | .inExt path pending rest =>
      let s := st.sess
      let s1 := if verdict then
          { s with found := s.found ++ [cfg.host ++ (path ++ pending)] }
        else s
      let s2 := if verdict && cfg.recursive then
          { s1 with workPools := s1.workPools ++ [path],
                    poolFiles := s1.poolFiles ++ [cfg.fresh],
                    seen := s1.seen ++ [path],
                    created := s1.created ++ [path] }
        else s1
      let s3 := { s2 with requests := s2.requests + 1 }
      match rest with
      | [] => { st with sess := s3,
                        ctls := fun i =>
                          if i = w then WorkerCtl.atLoop else st.ctls i }
      | e :: es =>
          { st with sess := s3,
                    ctls := fun i =>
                      if i = w then WorkerCtl.inExt path e es else st.ctls i }

/-- A run of the interleaved semantics under a schedule of
(worker id, verdict) pairs. -/
def microRun (cfg : Config) (steps : List (Nat × Bool)) (st : MicroState) :
    MicroState :=
  steps.foldl (fun acc p => microStep cfg p.1 p.2 acc) st

/-- The half of the C1 invariant that survives arbitrary interleaving:
every live job prefix, and every prefix ever used to create a job, is in
`seen`. -/
def MicroInv (st : MicroState) : Prop :=
  (∀ p ∈ st.sess.workPools, p ∈ st.sess.seen) ∧
  (∀ p ∈ st.sess.created, p ∈ st.sess.seen)

instance (st : MicroState) : Decidable (MicroInv st) :=
  inferInstanceAs (Decidable ((∀ p ∈ st.sess.workPools, p ∈ st.sess.seen) ∧
    (∀ p ∈ st.sess.created, p ∈ st.sess.seen)))

/-- The seen-superset invariant is preserved by every micro-step: job
creation and the `seen` insertion are in the same atomic section
(lines 271–273, no `await` in between), and `seen` never shrinks. -/
theorem microStep_preserves_inv (cfg : Config) (w : Nat) (verdict : Bool)
    (st : MicroState) (h : MicroInv st) : MicroInv (microStep cfg w verdict st) := by
  obtain ⟨hwp, hcr⟩ := h
  cases hc : st.ctls w with
  | done =>
      simp only [microStep, hc]
      exact ⟨hwp, hcr⟩
  | atLoop =>
      simp only [microStep, hc]
      by_cases hwpE : st.sess.workPools = []
      · simp only [if_pos hwpE]
        exact ⟨hwp, hcr⟩
      · simp only [if_neg hwpE]
        cases hm : st.sess.poolFiles.getD (w % st.sess.workPools.length) [] with
        | nil =>
            refine ⟨?_, hcr⟩
            intro p hp
            exact hwp p (List.eraseIdx_subset _ _ hp)
        | cons cand rest =>
            by_cases hs :
                st.sess.workPools.getD (w % st.sess.workPools.length) ""
                  ++ "/" ++ pyStrip cand ∈ st.sess.seen
            · simp only [if_pos hs]
              exact ⟨hwp, hcr⟩
            · simp only [if_neg hs]
              cases cfg.extensions with
              | nil => exact ⟨hwp, hcr⟩
              | cons e es => exact ⟨hwp, hcr⟩
  | inExt path pending rest =>
      simp only [microStep, hc]
      by_cases hvr : (verdict && cfg.recursive) = true
      · simp only [if_pos hvr]
        have hwp' : ∀ p ∈ st.sess.workPools ++ [path],
            p ∈ st.sess.seen ++ [path] := by
          intro p hp
          rcases List.mem_append.mp hp with hp | hp
          · exact List.mem_append.mpr (Or.inl (hwp p hp))
          · exact List.mem_append.mpr (Or.inr hp)
        have hcr' : ∀ p ∈ st.sess.created ++ [path],
            p ∈ st.sess.seen ++ [path] := by
          intro p hp
          rcases List.mem_append.mp hp with hp | hp
          · exact List.mem_append.mpr (Or.inl (hcr p hp))
          · exact List.mem_append.mpr (Or.inr hp)
        by_cases hv : verdict = true
        · simp only [if_pos hv]
          cases rest with
          | nil => exact ⟨hwp', hcr'⟩
          | cons e es => exact ⟨hwp', hcr'⟩
        · simp only [if_neg hv]
          cases rest with
          | nil => exact ⟨hwp', hcr'⟩
          | cons e es => exact ⟨hwp', hcr'⟩
      · simp only [if_neg hvr]
        by_cases hv : verdict = true
        · simp only [if_pos hv]
          cases rest with
          | nil => exact ⟨hwp, hcr⟩
          | cons e es => exact ⟨hwp, hcr⟩
        · simp only [if_neg hv]
          cases rest with
          | nil => exact ⟨hwp, hcr⟩
          | cons e es => exact ⟨hwp, hcr⟩

/-- A word list with a duplicated line, the single empty extension,
recursive mode on. -/
def demoCfgDupLine : Config :=
  { host := "http://host", extensions := [""], recursive := true,
    fresh := ["x", "x"] }

/-- With two workers the no-duplicate-jobs half of the invariant fails
even when at most one extension of each candidate tests valid: on the
word list `["x", "x"]` both workers pull a line composing the path `/x`
and pass the `seen` check before either resumes from its test, so both
append the job `/x` — the check and the append are separated by the
`await`.  (Schedule: worker 0 issues its test, worker 1 issues its test,
then both resume with a valid verdict.) -/
theorem two_worker_interleaving_duplicates_jobs :
    ¬ (microRun demoCfgDupLine [(0, true), (1, true), (0, true), (1, true)]
        (microInit demoCfgDupLine)).sess.workPools.Nodup := by
  decide

/-- C1, amended: (a) under the faithful interleaved semantics — any
worker count, any schedule, any per-test verdicts, recursive mode on or
off — the seen-superset half of the invariant holds initially and is
preserved by every micro-step: `seen` contains every live job prefix and
every prefix ever used to create a job (job creation and the `seen`
insertion share one atomic section).  (b) The no-duplicate half — the
jobs list never contains two entries with the same prefix — holds
initially and is preserved by every iteration of a *single-worker* run
(for which the serialized `taskStep` is the exact semantics) provided at
most one configured extension of each candidate path tests valid.  The
restrictions are forced: two valid extensions of one candidate break it
for one worker (the counterexample), and a second worker breaks it even
with one valid extension per candidate
(`two_worker_interleaving_duplicates_jobs`). -/
theorem session_invariant_amended (cfg : Config)
    (w : Nat) (verdict : Bool) (st : MicroState) (hmi : MicroInv st)
    (valid : String → Bool)
    (hone : ∀ path : String, cfg.extensions.countP (fun e => valid (path ++ e)) ≤ 1)
    (id : Nat) (s : SessionState) (hinv : SessionInv s) :
    MicroInv (microInit cfg) ∧
    MicroInv (microStep cfg w verdict st) ∧
    SessionInv (initState cfg) ∧
    SessionInv (taskStep cfg valid id s) := by
  refine ⟨⟨?_, ?_⟩, microStep_preserves_inv cfg w verdict st hmi,
    ⟨rfl, by simp [initState], by simp [initState], by simp [initState]⟩,
    taskStep_preserves_inv cfg valid hone id s hinv⟩
  · simp [microInit, initState]
  · simp [microInit, initState]

/-- Witness for the amended C1 at the concrete configuration `demoCfg`,
one micro-step of worker 0, and a tester for which nothing is valid. -/
theorem session_invariant_amended_witness :
    MicroInv (microInit demoCfg) ∧
    MicroInv (microStep demoCfg 0 true (microInit demoCfg)) ∧
    SessionInv (initState demoCfg) ∧
    SessionInv (taskStep demoCfg (fun _ => false) 0 (initState demoCfg)) :=
  session_invariant_amended demoCfg 0 true (microInit demoCfg) (by decide)
    (fun _ => false) (fun path => by simp) 0 (initState demoCfg) (by decide)
